import Mathlib

/-!
# Verification of the `mq` message queue (`src/messageQueue.hpp`)

Shallow embedding of the bounded policy queue: the backing buffer is a
`List`, the active `queue_manipulator` is determined by its `Mode`
(`QueueManipulatorFIFO` / `QueueManipulatorLIFO`), and the two counting
semaphores of the concurrency guard are explicit `Nat` counters.

The concurrency guard (`synchronizer.hpp`) is not part of the sources;
its sequential effect is modelled from the spec (§4.4): an operation is
*admitted* when its entry resource is non-zero, in which case the entry
resource is decremented before the body runs and the exit resource is
incremented unconditionally after the body finishes, on every exit path.
A call whose entry resource is zero blocks, which in this sequential
model means the operation does not complete (`Option.none`).
-/

namespace MQ

/-- Embedding of `enum class Mode` from `messageQueue.hpp`. -/
inductive Mode where
  | FIFO : Mode
  | LIFO : Mode
deriving DecidableEq, Repr

/-- State of `mq::Queue<Mtype>`: the backing buffer `msg_queue`
(head of the list = front of the container, last = back), the active
manipulator (`QueueManipulatorFIFO` or `QueueManipulatorLIFO`, fully
determined by its mode), the fixed `max_size`, and the two counting
semaphores `count_full` (available items) and `count_empty` (free
slots) whose sequential behaviour is modelled from the spec (§4.4). -/
structure QState (M : Type) where
  buf : List M
  manip : Mode
  maxSize : Nat
  countFull : Nat
  countEmpty : Nat
deriving DecidableEq, Repr

/-- The constructor `Queue(QueueType&& msg_queue_, std::size_t max_size_)`:
takes over the caller-supplied buffer, fixes the capacity, initialises
`count_full {max_size_, 0}` and `count_empty {max_size_, max_size_}`;
the member initialiser of `queue_manipulator` installs
`QueueManipulatorLIFO`. -/
def mkQueue {M : Type} (initBuf : List M) (maxSize : Nat) : QState M :=
  { buf := initBuf, manip := Mode.LIFO, maxSize,
    countFull := 0, countEmpty := maxSize }

/-- The default value of the constructor argument `max_size_ = 1000`. -/
def defaultCapacity : Nat := 1000

/-- Construction with the capacity argument left unspecified. -/
def mkQueueDefault {M : Type} (initBuf : List M) : QState M :=
  mkQueue initBuf defaultCapacity

/-- Embeds `Queue::full`: `msg_queue->size() == max_size`. -/
def QState.full {M : Type} (q : QState M) : Bool :=
  q.buf.length == q.maxSize

/-- Peek of the active manipulator: `QueueManipulatorFIFO::get`
reads `messq.front()`, `QueueManipulatorLIFO::get` reads `messq.back()`.
`none` when the buffer is empty (in C++ this call would be undefined,
but `dequeue_if` guards it behind an emptiness check). -/
def peekMsg {M : Type} (q : QState M) : Option M :=
  match q.manip with
  | Mode.FIFO => q.buf.head?
  | Mode.LIFO => q.buf.getLast?

/-- Pop of the active manipulator: `QueueManipulatorFIFO::pop` calls
`messq.pop_front()`, `QueueManipulatorLIFO::pop` calls `messq.pop_back()`. -/
def popBuf {M : Type} (q : QState M) : List M :=
  match q.manip with
  | Mode.FIFO => q.buf.tail
  | Mode.LIFO => q.buf.dropLast

/-- Embeds `Queue::push`: if `full()` return `false`; otherwise append via the
push rule of the manipulator (`BaseQueueManipulator::push` calls
`messq.push(msg)`, i.e. `push_back`, in both modes — neither derived
manipulator overrides it) and return `true`. -/
def pushMsg {M : Type} (msg : M) (q : QState M) : QState M × Bool :=
  if q.full then (q, false)
  else ({ q with buf := q.buf ++ [msg] }, true)

/-- Embeds `Queue::enqueue`: a guard scope `Synchronizer s {count_empty,
count_full, mutex}` around `push(msg)`. Modelled from the spec (§4.4)
for the guard itself: admitted only when `count_empty` is non-zero
(otherwise the call blocks — `none`); on admission `count_empty` is
decremented, the body runs, and `count_full` is incremented
unconditionally on scope exit. Returns the new state and the
boolean result of `push`. -/
def enqueueOp {M : Type} (msg : M) (q : QState M) : Option (QState M × Bool) :=
  if q.countEmpty = 0 then none
  else
    let pr := pushMsg msg q
    some ({ pr.1 with countEmpty := q.countEmpty - 1,
                      countFull := q.countFull + 1 }, pr.2)

/-- Embeds `Queue::dequeue_if` with a total predicate: a guard scope
`Synchronizer s {count_full, count_empty, mutex}` (modelled from the
spec §4.4: admitted only when `count_full` is non-zero, which is
decremented; `count_empty` is incremented unconditionally on every
scope exit, including the no-match paths). The body: if the buffer is
empty return `{}`; peek the next-visible message via the `get` of the
manipulator; if the predicate accepts it, `pop()` and return it, otherwise
return `{}`. -/
def dequeueIfOp {M : Type} (pred : M → Bool) (q : QState M) :
    Option (QState M × Option M) :=
  if q.countFull = 0 then none
  else
    let res : List M × Option M :=
      match peekMsg q with
      | none => (q.buf, none)
      | some m => if pred m then (popBuf q, some m) else (q.buf, none)
    some ({ q with buf := res.1, countFull := q.countFull - 1,
                   countEmpty := q.countEmpty + 1 }, res.2)

/-- Embeds `Queue::dequeue_if` with a predicate that may raise (C++ exception,
embedded as `Except`): identical protocol, but if evaluating the
predicate raises, the exception propagates out of the guard scope
(whose destructor still unlocks and signals `count_empty`) before any
mutation of the buffer. -/
def dequeueIfE {M E : Type} (pred : M → Except E Bool) (q : QState M) :
    Option (QState M × Except E (Option M)) :=
  if q.countFull = 0 then none
  else
    let res : List M × Except E (Option M) :=
      match peekMsg q with
      | none => (q.buf, Except.ok none)
      | some m =>
        match pred m with
        | Except.error e => (q.buf, Except.error e)
        | Except.ok true => (popBuf q, Except.ok (some m))
        | Except.ok false => (q.buf, Except.ok none)
    some ({ q with buf := res.1, countFull := q.countFull - 1,
                   countEmpty := q.countEmpty + 1 }, res.2)

/-- Embeds `Queue::set_mode`: under the lock, `switch (new_mode)` installs a
fresh `QueueManipulatorFIFO` for `Mode::FIFO` (underlying value 0), a
fresh `QueueManipulatorLIFO` for `Mode::LIFO` (underlying value 1), and
does nothing in the `default` branch (a C++ `enum class Mode` value may
carry any value of the underlying integer type, so the argument is
modelled as that integer). -/
def setMode {M : Type} (code : Int) (q : QState M) : QState M :=
  if code = 0 then { q with manip := Mode.FIFO }
  else if code = 1 then { q with manip := Mode.LIFO }
  else q

/-- Embeds `Queue::mode`: returns `queue_manipulator->get_mode()`, the mode the
active manipulator was constructed with. -/
def modeOp {M : Type} (q : QState M) : Mode :=
  q.manip

/-- One call in a client-visible history: an `enqueue` of a message or a
`dequeue_if` with a total predicate. -/
inductive Op (M : Type) where
  | enq : M → Op M
  | deq : (M → Bool) → Op M

/-- Effect of one call on the queue state; a call that blocks (entry
resource exhausted) does not complete and leaves the state unchanged. -/
def stepOp {M : Type} (q : QState M) (op : Op M) : QState M :=
  match op with
  | Op.enq msg =>
    match enqueueOp msg q with
    | some pr => pr.1
    | none => q
  | Op.deq pred =>
    match dequeueIfOp pred q with
    | some pr => pr.1
    | none => q

/-- Run a sequence of calls from a starting state. -/
def runOps {M : Type} (ops : List (Op M)) (q : QState M) : QState M :=
  ops.foldl stepOp q

/-- Enqueue a list of messages in order (used by the order laws). -/
def enqueueAll {M : Type} (msgs : List M) (q : QState M) : QState M :=
  msgs.foldl (fun s m => stepOp s (Op.enq m)) q

/-- Repeatedly call `dequeue_if` with an always-true predicate, up to
`fuel` times, collecting the returned messages; stops early if a call
blocks or returns no match. -/
def drain {M : Type} : Nat → QState M → List M
  | 0, _ => []
  | fuel + 1, q =>
    match dequeueIfOp (fun _ => true) q with
    | some (q2, some m) => m :: drain fuel q2
    | _ => []

/-! ## Helper lemmas -/

/-- A list whose `head?` is `some m` starts with `m`. -/
lemma buf_eq_cons_of_head {M : Type} {l : List M} {m : M}
    (h : l.head? = some m) : l = m :: l.tail :=
  List.eq_cons_of_mem_head? (Option.mem_def.mpr h)

/-- A list whose `getLast?` is `some m` ends with `m`. -/
lemma buf_eq_concat_of_getLast {M : Type} {l : List M} {m : M}
    (h : l.getLast? = some m) : l = l.dropLast ++ [m] :=
  (List.dropLast_append_getLast? m (Option.mem_def.mpr h)).symm

/-- Branch equation: a call with no available item blocks. -/
lemma dequeueIfOp_blocked {M : Type} (pred : M → Bool) (q : QState M)
    (h : q.countFull = 0) : dequeueIfOp pred q = none := by
  unfold dequeueIfOp
  rw [if_pos h]

/-- Branch equation: an admitted call on an empty buffer returns no
match and leaves the buffer alone. -/
lemma dequeueIfOp_none {M : Type} (pred : M → Bool) (q : QState M)
    (h : ¬ q.countFull = 0) (hpk : peekMsg q = none) :
    dequeueIfOp pred q =
      some ({ q with countFull := q.countFull - 1, countEmpty := q.countEmpty + 1 }, none) := by
  unfold dequeueIfOp
  rw [if_neg h, hpk]

/-- Branch equation: an admitted call whose predicate accepts the
peeked message pops it and returns it. -/
lemma dequeueIfOp_accept {M : Type} (pred : M → Bool) (q : QState M) (m : M)
    (h : ¬ q.countFull = 0) (hpk : peekMsg q = some m) (hp : pred m = true) :
    dequeueIfOp pred q =
      some ({ q with buf := popBuf q, countFull := q.countFull - 1, countEmpty := q.countEmpty + 1 }, some m) := by
  unfold dequeueIfOp
  rw [if_neg h, hpk]
  simp [hp]

/-- Branch equation: an admitted call whose predicate rejects the
peeked message returns no match and leaves the buffer alone. -/
lemma dequeueIfOp_reject {M : Type} (pred : M → Bool) (q : QState M) (m : M)
    (h : ¬ q.countFull = 0) (hpk : peekMsg q = some m) (hp : pred m = false) :
    dequeueIfOp pred q =
      some ({ q with countFull := q.countFull - 1, countEmpty := q.countEmpty + 1 }, none) := by
  unfold dequeueIfOp
  rw [if_neg h, hpk]
  simp [hp]

/-- Branch equation: a call with no free slot blocks. -/
lemma enqueueOp_blocked {M : Type} (msg : M) (q : QState M)
    (h : q.countEmpty = 0) : enqueueOp msg q = none := by
  unfold enqueueOp
  rw [if_pos h]

/-- Branch equation: an admitted call on a non-full buffer appends at
the tail and returns `true`. -/
lemma enqueueOp_notfull {M : Type} (msg : M) (q : QState M)
    (h : ¬ q.countEmpty = 0) (hf : q.buf.length ≠ q.maxSize) :
    enqueueOp msg q =
      some ({ q with buf := q.buf ++ [msg], countFull := q.countFull + 1, countEmpty := q.countEmpty - 1 }, true) := by
  unfold enqueueOp pushMsg QState.full
  rw [if_neg h]
  have hb : (q.buf.length == q.maxSize) = false := by simp [hf]
  simp [hb]

/-- Branch equation: an admitted call on a full buffer appends nothing
and returns `false`. -/
lemma enqueueOp_full {M : Type} (msg : M) (q : QState M)
    (h : ¬ q.countEmpty = 0) (hf : q.buf.length = q.maxSize) :
    enqueueOp msg q =
      some ({ q with countFull := q.countFull + 1, countEmpty := q.countEmpty - 1 }, false) := by
  unfold enqueueOp pushMsg QState.full
  rw [if_neg h]
  have hb : (q.buf.length == q.maxSize) = true := by simp [hf]
  simp [hb]

/-! ## Claim theorems -/

/-- C1. On every admitted call, `dequeue_if` inspects the next-visible
message selected by the peek rule of the active manipulator (`head?` in
FIFO mode, `getLast?` in LIFO mode); if the predicate holds there,
exactly that message is removed (front removal in FIFO mode, back
removal in LIFO mode) and returned; if the predicate rejects it, or the
buffer is empty, the buffer is unchanged and the call returns no match;
in particular an always-false predicate never changes the buffer. -/
theorem dequeue_if_correct {M : Type} (pred : M → Bool) (q : QState M)
    (hAdm : 0 < q.countFull) :
    ∃ q2 r, dequeueIfOp pred q = some (q2, r) ∧
      (∀ m, peekMsg q = some m → pred m = true →
        r = some m ∧
        (q.manip = Mode.FIFO → q.buf = m :: q2.buf) ∧
        (q.manip = Mode.LIFO → q.buf = q2.buf ++ [m])) ∧
      (∀ m, peekMsg q = some m → pred m = false → r = none ∧ q2.buf = q.buf) ∧
      (peekMsg q = none → r = none ∧ q2.buf = q.buf) ∧
      ((∀ x, pred x = false) → r = none ∧ q2.buf = q.buf) := by
  have hcf : ¬ q.countFull = 0 := by omega
  cases hpk : peekMsg q with
  | none =>
    refine ⟨{ q with countFull := q.countFull - 1, countEmpty := q.countEmpty + 1 }, none, ?_, ?_, ?_, ?_, ?_⟩
    · unfold dequeueIfOp
      rw [if_neg hcf, hpk]
    · intro m hm
      exact Option.noConfusion hm
    · intro m hm
      exact Option.noConfusion hm
    · intro _
      exact ⟨rfl, rfl⟩
    · intro _
      exact ⟨rfl, rfl⟩
  | some m =>
    cases hp : pred m with
    | true =>
      refine ⟨{ q with buf := popBuf q, countFull := q.countFull - 1, countEmpty := q.countEmpty + 1 }, some m, ?_, ?_, ?_, ?_, ?_⟩
      · unfold dequeueIfOp
        rw [if_neg hcf, hpk]
        simp [hp]
      · intro m2 hm2 _
        injection hm2 with hmm
        subst hmm
        refine ⟨rfl, ?_, ?_⟩
        · intro hmode
          show q.buf = m :: popBuf q
          simp only [popBuf, hmode]
          simp only [peekMsg, hmode] at hpk
          exact buf_eq_cons_of_head hpk
        · intro hmode
          show q.buf = popBuf q ++ [m]
          simp only [popBuf, hmode]
          simp only [peekMsg, hmode] at hpk
          exact buf_eq_concat_of_getLast hpk
      · intro m2 hm2 hp2
        injection hm2 with hmm
        subst hmm
        rw [hp] at hp2
        exact Bool.noConfusion hp2
      · intro hnone
        exact Option.noConfusion hnone
      · intro hall
        have hx := hall m
        rw [hp] at hx
        exact Bool.noConfusion hx
    | false =>
      refine ⟨{ q with countFull := q.countFull - 1, countEmpty := q.countEmpty + 1 }, none, ?_, ?_, ?_, ?_, ?_⟩
      · unfold dequeueIfOp
        rw [if_neg hcf, hpk]
        simp [hp]
      · intro m2 hm2 hp2
        injection hm2 with hmm
        subst hmm
        rw [hp] at hp2
        exact Bool.noConfusion hp2
      · intro m2 hm2 _
        exact ⟨rfl, rfl⟩
      · intro hnone
        exact Option.noConfusion hnone
      · intro _
        exact ⟨rfl, rfl⟩

/-- Witness for C1 at a concrete input: a FIFO queue holding `[5]`, one
available item, and a predicate accepting `5`. -/
theorem dequeue_if_correct_witness :
    ∃ q2 r, dequeueIfOp (fun n => n == 5)
        (⟨[5], Mode.FIFO, 2, 1, 1⟩ : QState Nat) = some (q2, r) ∧
      (∀ m, peekMsg (⟨[5], Mode.FIFO, 2, 1, 1⟩ : QState Nat) = some m →
          (fun n => n == 5) m = true →
        r = some m ∧
        ((⟨[5], Mode.FIFO, 2, 1, 1⟩ : QState Nat).manip = Mode.FIFO →
          (⟨[5], Mode.FIFO, 2, 1, 1⟩ : QState Nat).buf = m :: q2.buf) ∧
        ((⟨[5], Mode.FIFO, 2, 1, 1⟩ : QState Nat).manip = Mode.LIFO →
          (⟨[5], Mode.FIFO, 2, 1, 1⟩ : QState Nat).buf = q2.buf ++ [m])) ∧
      (∀ m, peekMsg (⟨[5], Mode.FIFO, 2, 1, 1⟩ : QState Nat) = some m →
          (fun n => n == 5) m = false → r = none ∧ q2.buf = [5]) ∧
      (peekMsg (⟨[5], Mode.FIFO, 2, 1, 1⟩ : QState Nat) = none →
        r = none ∧ q2.buf = [5]) ∧
      ((∀ x, (fun n => n == 5) x = false) → r = none ∧ q2.buf = [5]) :=
  dequeue_if_correct (fun n => n == 5) ⟨[5], Mode.FIFO, 2, 1, 1⟩ (by decide)

/-- C7. For every queue state and every mode argument (any value of the
underlying integer type), `set_mode` leaves the backing buffer, the
capacity and both counting resources unchanged; only the active
manipulator may change. -/
theorem set_mode_frame {M : Type} (code : Int) (q : QState M) :
    (setMode code q).buf = q.buf ∧
    (setMode code q).maxSize = q.maxSize ∧
    (setMode code q).countFull = q.countFull ∧
    (setMode code q).countEmpty = q.countEmpty := by
  unfold setMode
  split
  · exact ⟨rfl, rfl, rfl, rfl⟩
  · split
    · exact ⟨rfl, rfl, rfl, rfl⟩
    · exact ⟨rfl, rfl, rfl, rfl⟩

/-- C9. A queue constructed without a capacity argument has capacity
1000, and its mode is `LIFO` (most-recent-first) until `set_mode` is
called: the member initialiser installs `QueueManipulatorLIFO`. -/
theorem fresh_queue_defaults {M : Type} (initBuf : List M) :
    (mkQueueDefault initBuf).maxSize = 1000 ∧
    modeOp (mkQueueDefault initBuf) = Mode.LIFO :=
  ⟨rfl, rfl⟩

/-- C10. Calling `set_mode` with a value outside the two enumerators
(underlying values 0 and 1) hits the `default` branch and is a silent
no-op, and the active manipulator is always one of the two defined
variants, so `mode()` always returns `FIFO` or `LIFO`. -/
theorem set_mode_invalid_noop {M : Type} (code : Int) (q : QState M) :
    (code ≠ 0 → code ≠ 1 → setMode code q = q) ∧
    (modeOp q = Mode.FIFO ∨ modeOp q = Mode.LIFO) := by
  constructor
  · intro h0 h1
    unfold setMode
    rw [if_neg h0, if_neg h1]
  · unfold modeOp
    cases q.manip
    · exact Or.inl rfl
    · exact Or.inr rfl

/-- Witness for C10 at a concrete input: the out-of-range code 2 on a
fresh queue of capacity 3. -/
theorem set_mode_invalid_noop_witness :
    setMode 2 (mkQueue ([] : List Nat) 3) = mkQueue ([] : List Nat) 3 ∧
    (modeOp (mkQueue ([] : List Nat) 3) = Mode.FIFO ∨
      modeOp (mkQueue ([] : List Nat) 3) = Mode.LIFO) :=
  ⟨(set_mode_invalid_noop 2 (mkQueue [] 3)).1 (by decide) (by decide),
   (set_mode_invalid_noop 2 (mkQueue [] 3)).2⟩

/-- C8. If the caller-supplied predicate raises on the peeked message,
the failure propagates to the caller unchanged and the backing buffer is
exactly as before the call: the predicate runs strictly before any
mutation, so nothing is removed or inserted. -/
theorem dequeue_if_pred_error {M E : Type} (pred : M → Except E Bool)
    (q : QState M) (m : M) (e : E) (hAdm : 0 < q.countFull)
    (hpk : peekMsg q = some m) (hp : pred m = Except.error e) :
    ∃ q2, dequeueIfE pred q = some (q2, Except.error e) ∧ q2.buf = q.buf := by
  have hcf : ¬ q.countFull = 0 := by omega
  refine ⟨{ q with countFull := q.countFull - 1, countEmpty := q.countEmpty + 1 }, ?_, rfl⟩
  unfold dequeueIfE
  rw [if_neg hcf, hpk]
  simp [hp]

/-- Witness for C8 at a concrete input: a LIFO queue holding `[3]` and a
predicate that always raises the error value `0`. -/
theorem dequeue_if_pred_error_witness :
    ∃ q2, dequeueIfE (fun _ => (Except.error 0 : Except Nat Bool))
        (⟨[3], Mode.LIFO, 2, 1, 1⟩ : QState Nat) = some (q2, Except.error 0) ∧
      q2.buf = [3] :=
  dequeue_if_pred_error (fun _ => Except.error 0) ⟨[3], Mode.LIFO, 2, 1, 1⟩ 3 0
    (by decide) (by decide) rfl

/-- C2 counterexample. The claim says an admitted `enqueue` always
appends and returns success, with no normal failure return value. On
the code, a capacity-1 queue after `enqueue(0)` and a rejecting
`dequeue_if` (which consumed an item token and signalled a free slot
without removing anything) admits `enqueue(1)`, which finds the buffer
full, appends nothing and returns `false` — a normal failure return. -/
theorem enqueue_no_failure_cex :
    enqueueOp 0 (mkQueue ([] : List Nat) 1) =
      some (⟨[0], Mode.LIFO, 1, 1, 0⟩, true) ∧
    dequeueIfOp (fun _ => false) (⟨[0], Mode.LIFO, 1, 1, 0⟩ : QState Nat) =
      some (⟨[0], Mode.LIFO, 1, 0, 1⟩, none) ∧
    enqueueOp 1 (⟨[0], Mode.LIFO, 1, 0, 1⟩ : QState Nat) =
      some (⟨[0], Mode.LIFO, 1, 1, 0⟩, false) :=
  ⟨rfl, rfl, rfl⟩

/-- C2 amended. For every admitted call, `enqueue(msg)` appends `msg`
at the tail of the backing buffer and returns `true` when the buffer is
not full; when the admitted call finds the buffer full it appends
nothing and returns `false`, so the boolean return value of `enqueue`
is a normal failure channel. -/
theorem enqueue_amended {M : Type} (msg : M) (q : QState M)
    (hAdm : 0 < q.countEmpty) :
    ∃ q2 r, enqueueOp msg q = some (q2, r) ∧
      (q.buf.length < q.maxSize → q2.buf = q.buf ++ [msg] ∧ r = true) ∧
      (q.buf.length = q.maxSize → q2.buf = q.buf ∧ r = false) := by
  have hce : ¬ q.countEmpty = 0 := by omega
  by_cases hfull : q.buf.length = q.maxSize
  · refine ⟨{ q with countEmpty := q.countEmpty - 1, countFull := q.countFull + 1 }, false, ?_, ?_, ?_⟩
    · unfold enqueueOp pushMsg QState.full
      rw [if_neg hce]
      have hb : (q.buf.length == q.maxSize) = true := by simp [hfull]
      simp [hb]
    · intro hlt
      exact absurd hfull (by omega)
    · intro _
      exact ⟨rfl, rfl⟩
  · refine ⟨{ q with buf := q.buf ++ [msg], countEmpty := q.countEmpty - 1, countFull := q.countFull + 1 }, true, ?_, ?_, ?_⟩
    · unfold enqueueOp pushMsg QState.full
      rw [if_neg hce]
      have hb : (q.buf.length == q.maxSize) = false := by simp [hfull]
      simp [hb]
    · intro _
      exact ⟨rfl, rfl⟩
    · intro h
      exact absurd h hfull

/-- Witness for the amended C2 at a concrete input: an empty queue of
capacity 2 admits `enqueue(7)` and appends at the tail. -/
theorem enqueue_amended_witness :
    ∃ q2 r, enqueueOp 7 (mkQueue ([] : List Nat) 2) = some (q2, r) ∧
      (0 < 2 → q2.buf = [7] ∧ r = true) ∧
      ((0 : Nat) = 2 → q2.buf = [] ∧ r = false) :=
  enqueue_amended 7 (mkQueue [] 2) (by decide)

/-- C3 counterexample. The claim says an admitted `enqueue` that finds
the buffer full is reported via an unrecoverable assertion/fault and
never surfaced as a normal error return. On the code the same reachable
drift state as for C2 (capacity 1, one buffered message, a free-slot
token minted by a rejecting `dequeue_if`) makes the admitted
`enqueue(8)` return the normal value `false`: no assertion exists on
this path (`Queue::push` simply returns `false`). -/
theorem no_assertion_on_full_cex :
    enqueueOp 7 (mkQueue ([] : List Nat) 1) =
      some (⟨[7], Mode.LIFO, 1, 1, 0⟩, true) ∧
    dequeueIfOp (fun _ => false) (⟨[7], Mode.LIFO, 1, 1, 0⟩ : QState Nat) =
      some (⟨[7], Mode.LIFO, 1, 0, 1⟩, none) ∧
    enqueueOp 8 (⟨[7], Mode.LIFO, 1, 0, 1⟩ : QState Nat) =
      some (⟨[7], Mode.LIFO, 1, 1, 0⟩, false) :=
  ⟨rfl, rfl, rfl⟩

/-- C3 amended. An admitted `enqueue` that finds the buffer already
full completes normally with the return value `false` and an unchanged
buffer, and an admitted `dequeue_if` that finds the buffer empty
completes normally with a no-match return; neither condition raises an
assertion or fault, and neither is silently swallowed into a success
return. -/
theorem admitted_edge_normal_return {M : Type} (msg : M) (pred : M → Bool)
    (q : QState M) :
    (0 < q.countEmpty → q.buf.length = q.maxSize →
      ∃ q2, enqueueOp msg q = some (q2, false) ∧ q2.buf = q.buf) ∧
    (0 < q.countFull → q.buf = [] →
      ∃ q2, dequeueIfOp pred q = some (q2, none) ∧ q2.buf = []) := by
  constructor
  · intro hce hfull
    have hne : ¬ q.countEmpty = 0 := by omega
    refine ⟨{ q with countEmpty := q.countEmpty - 1, countFull := q.countFull + 1 }, ?_, rfl⟩
    unfold enqueueOp pushMsg QState.full
    rw [if_neg hne]
    have hb : (q.buf.length == q.maxSize) = true := by simp [hfull]
    simp [hb]
  · intro hcf hempty
    have hne : ¬ q.countFull = 0 := by omega
    have hpk : peekMsg q = none := by
      unfold peekMsg
      cases q.manip
      · simp [hempty]
      · simp [hempty]
    refine ⟨{ q with countFull := q.countFull - 1, countEmpty := q.countEmpty + 1 }, ?_, ?_⟩
    · unfold dequeueIfOp
      rw [if_neg hne, hpk]
    · show q.buf = []
      exact hempty

/-- Witness for the amended C3 at a concrete input: with capacity 0 the
buffer is simultaneously full and empty, the admitted `enqueue` returns
`false` and the admitted `dequeue_if` returns no match. -/
theorem admitted_edge_normal_return_witness :
    (∃ q2, enqueueOp 5 (⟨[], Mode.LIFO, 0, 1, 1⟩ : QState Nat) =
        some (q2, false) ∧ q2.buf = []) ∧
    (∃ q2, dequeueIfOp (fun _ => true) (⟨[], Mode.LIFO, 0, 1, 1⟩ : QState Nat) =
        some (q2, none) ∧ q2.buf = []) :=
  ⟨(admitted_edge_normal_return 5 (fun _ => true)
      (⟨[], Mode.LIFO, 0, 1, 1⟩ : QState Nat)).1 (by decide) (by decide),
   (admitted_edge_normal_return 5 (fun _ => true)
      (⟨[], Mode.LIFO, 0, 1, 1⟩ : QState Nat)).2 (by decide) (by decide)⟩

/-! ## Occupancy invariant (C4) -/

/-- Popping at either end never lengthens the buffer. -/
lemma popBuf_length_le {M : Type} (q : QState M) :
    (popBuf q).length ≤ q.buf.length := by
  unfold popBuf
  cases q.manip
  · rw [List.length_tail]
    exact Nat.sub_le _ _
  · rw [List.length_dropLast]
    exact Nat.sub_le _ _

/-- One `enqueue` call keeps occupancy within capacity. -/
lemma stepOp_enq_bound {M : Type} (msg : M) (q : QState M)
    (h : q.buf.length ≤ q.maxSize) :
    (stepOp q (Op.enq msg)).buf.length ≤ q.maxSize ∧
    (stepOp q (Op.enq msg)).maxSize = q.maxSize := by
  simp only [stepOp]
  by_cases hce : q.countEmpty = 0
  · rw [enqueueOp_blocked msg q hce]
    exact ⟨h, rfl⟩
  · by_cases hf : q.buf.length = q.maxSize
    · rw [enqueueOp_full msg q hce hf]
      exact ⟨h, rfl⟩
    · rw [enqueueOp_notfull msg q hce hf]
      refine ⟨?_, rfl⟩
      show (q.buf ++ [msg]).length ≤ q.maxSize
      rw [List.length_append]
      simp only [List.length_cons, List.length_nil]
      omega

/-- One `dequeue_if` call keeps occupancy within capacity. -/
lemma stepOp_deq_bound {M : Type} (pred : M → Bool) (q : QState M)
    (h : q.buf.length ≤ q.maxSize) :
    (stepOp q (Op.deq pred)).buf.length ≤ q.maxSize ∧
    (stepOp q (Op.deq pred)).maxSize = q.maxSize := by
  simp only [stepOp]
  by_cases hcf : q.countFull = 0
  · rw [dequeueIfOp_blocked pred q hcf]
    exact ⟨h, rfl⟩
  · cases hpk : peekMsg q with
    | none =>
      rw [dequeueIfOp_none pred q hcf hpk]
      exact ⟨h, rfl⟩
    | some m =>
      cases hp : pred m with
      | true =>
        rw [dequeueIfOp_accept pred q m hcf hpk hp]
        refine ⟨?_, rfl⟩
        show (popBuf q).length ≤ q.maxSize
        have := popBuf_length_le q
        omega
      | false =>
        rw [dequeueIfOp_reject pred q m hcf hpk hp]
        exact ⟨h, rfl⟩

/-- One call of either kind keeps occupancy within the (unchanged)
capacity. -/
lemma stepOp_bound {M : Type} (q : QState M) (op : Op M)
    (h : q.buf.length ≤ q.maxSize) :
    (stepOp q op).buf.length ≤ (stepOp q op).maxSize ∧
    (stepOp q op).maxSize = q.maxSize := by
  cases op with
  | enq msg =>
    have h2 := stepOp_enq_bound msg q h
    exact ⟨by rw [h2.2]; exact h2.1, h2.2⟩
  | deq pred =>
    have h2 := stepOp_deq_bound pred q h
    exact ⟨by rw [h2.2]; exact h2.1, h2.2⟩

/-- Any sequence of calls keeps occupancy within the (unchanged)
capacity. -/
lemma runOps_bound {M : Type} (ops : List (Op M)) (q : QState M)
    (h : q.buf.length ≤ q.maxSize) :
    (runOps ops q).buf.length ≤ (runOps ops q).maxSize ∧
    (runOps ops q).maxSize = q.maxSize := by
  induction ops generalizing q with
  | nil => exact ⟨h, rfl⟩
  | cons op rest ih =>
    have h1 := stepOp_bound q op h
    have h2 := ih (stepOp q op) h1.1
    exact ⟨h2.1, h2.2.trans h1.2⟩

/-- C4. For every sequence of `enqueue` and `dequeue_if` calls starting
from an empty queue of capacity `C`, buffer occupancy stays between 0
and `C` inclusive after every operation (every prefix of calls is
itself quantified over). -/
theorem occupancy_invariant {M : Type} (C : Nat) (ops : List (Op M)) :
    (runOps ops (mkQueue ([] : List M) C)).buf.length ≤ C ∧
    0 ≤ (runOps ops (mkQueue ([] : List M) C)).buf.length := by
  have h := runOps_bound ops (mkQueue ([] : List M) C) (Nat.zero_le _)
  refine ⟨?_, Nat.zero_le _⟩
  have h1 := h.1
  rw [h.2] at h1
  exact h1

/-! ## Order laws (C5, C6) -/

/-- Enqueuing a batch into a queue with enough free slots and enough
spare capacity appends the batch at the tail in order, consumes one
free-slot token per message and mints one item token per message. -/
lemma enqueueAll_spec {M : Type} (msgs : List M) (q : QState M)
    (hcap : q.buf.length + msgs.length ≤ q.maxSize)
    (hce : msgs.length ≤ q.countEmpty) :
    enqueueAll msgs q =
      ⟨q.buf ++ msgs, q.manip, q.maxSize,
        q.countFull + msgs.length, q.countEmpty - msgs.length⟩ := by
  induction msgs generalizing q with
  | nil =>
    show q = _
    cases q
    simp
  | cons m rest ih =>
    have hce0 : ¬ q.countEmpty = 0 := by
      simp only [List.length_cons] at hce
      omega
    have hnf : q.buf.length ≠ q.maxSize := by
      simp only [List.length_cons] at hcap
      omega
    have hstep : stepOp q (Op.enq m) =
        ⟨q.buf ++ [m], q.manip, q.maxSize, q.countFull + 1, q.countEmpty - 1⟩ := by
      simp only [stepOp]
      rw [enqueueOp_notfull m q hce0 hnf]
    show enqueueAll rest (stepOp q (Op.enq m)) = _
    rw [hstep]
    rw [ih ⟨q.buf ++ [m], q.manip, q.maxSize, q.countFull + 1, q.countEmpty - 1⟩
        (by show (q.buf ++ [m]).length + rest.length ≤ q.maxSize
            rw [List.length_append]
            simp only [List.length_cons, List.length_nil] at hcap ⊢
            omega)
        (by show rest.length ≤ q.countEmpty - 1
            simp only [List.length_cons] at hce
            omega)]
    have hbuf : (q.buf ++ [m]) ++ rest = q.buf ++ (m :: rest) := by simp
    have hcf2 : q.countFull + 1 + rest.length = q.countFull + (m :: rest).length := by
      simp only [List.length_cons]
      omega
    have hce2 : q.countEmpty - 1 - rest.length = q.countEmpty - (m :: rest).length := by
      simp only [List.length_cons]
      omega
    rw [hbuf, hcf2, hce2]

/-- Draining a FIFO queue holding `l` with enough item tokens yields
`l` front to back. -/
lemma drain_fifo {M : Type} (l : List M) (q : QState M)
    (hm : q.manip = Mode.FIFO) (hb : q.buf = l)
    (hcf : l.length ≤ q.countFull) :
    drain l.length q = l := by
  induction l generalizing q with
  | nil => rfl
  | cons a t ih =>
    have hcf0 : ¬ q.countFull = 0 := by
      simp only [List.length_cons] at hcf
      omega
    have hpk : peekMsg q = some a := by
      simp [peekMsg, hm, hb]
    have hpop : popBuf q = t := by
      simp [popBuf, hm, hb]
    show drain (t.length + 1) q = a :: t
    unfold drain
    rw [dequeueIfOp_accept (fun _ => true) q a hcf0 hpk rfl]
    show a :: drain t.length ⟨popBuf q, q.manip, q.maxSize,
      q.countFull - 1, q.countEmpty + 1⟩ = a :: t
    rw [ih ⟨popBuf q, q.manip, q.maxSize, q.countFull - 1, q.countEmpty + 1⟩
        hm hpop (by show t.length ≤ q.countFull - 1
                    simp only [List.length_cons] at hcf
                    omega)]

/-- Draining a LIFO queue holding `l` with enough item tokens yields
`l` back to front, i.e. reversed. -/
lemma drain_lifo {M : Type} (l : List M) (q : QState M)
    (hm : q.manip = Mode.LIFO) (hb : q.buf = l)
    (hcf : l.length ≤ q.countFull) :
    drain l.length q = l.reverse := by
  induction l using List.reverseRecOn generalizing q with
  | nil => rfl
  | append_singleton t a ih =>
    have hlen : (t ++ [a]).length = t.length + 1 := by
      simp [List.length_append]
    have hcf0 : ¬ q.countFull = 0 := by
      rw [hlen] at hcf
      omega
    have hpk : peekMsg q = some a := by
      simp [peekMsg, hm, hb]
    have hpop : popBuf q = t := by
      simp [popBuf, hm, hb]
    rw [hlen]
    unfold drain
    rw [dequeueIfOp_accept (fun _ => true) q a hcf0 hpk rfl]
    show a :: drain t.length ⟨popBuf q, q.manip, q.maxSize,
      q.countFull - 1, q.countEmpty + 1⟩ = (t ++ [a]).reverse
    rw [ih ⟨popBuf q, q.manip, q.maxSize, q.countFull - 1, q.countEmpty + 1⟩
        hm hpop (by show t.length ≤ q.countFull - 1
                    rw [hlen] at hcf
                    omega)]
    simp

/-- C5. In FIFO (oldest-first) mode, enqueuing `msgs` (at most the
capacity many) into an empty queue and then repeatedly calling
`dequeue_if` with an always-true predicate yields `msgs` in insertion
order. -/
theorem fifo_order_law {M : Type} (C : Nat) (msgs : List M)
    (hN : msgs.length ≤ C) :
    drain msgs.length (enqueueAll msgs (setMode 0 (mkQueue ([] : List M) C))) = msgs := by
  have hq0 : setMode 0 (mkQueue ([] : List M) C) =
      ⟨[], Mode.FIFO, C, 0, C⟩ := rfl
  rw [hq0]
  rw [enqueueAll_spec msgs ⟨[], Mode.FIFO, C, 0, C⟩
      (by simpa using hN) (by simpa using hN)]
  exact drain_fifo msgs _ rfl (by simp) (by simp)

/-- Witness for C5 at a concrete input: capacity 3, messages
`[10, 20, 30]`, drained in insertion order. -/
theorem fifo_order_law_witness :
    drain 3 (enqueueAll [10, 20, 30] (setMode 0 (mkQueue ([] : List Nat) 3))) =
      [10, 20, 30] :=
  fifo_order_law 3 [10, 20, 30] (by decide)

/-- C6. In LIFO (most-recent-first) mode — the mode a fresh queue is
in — enqueuing `msgs` (at most the capacity many) into an empty queue
and then repeatedly calling `dequeue_if` with an always-true predicate
yields the reverse of insertion order. -/
theorem lifo_order_law {M : Type} (C : Nat) (msgs : List M)
    (hN : msgs.length ≤ C) :
    drain msgs.length (enqueueAll msgs (mkQueue ([] : List M) C)) = msgs.reverse := by
  have hq0 : mkQueue ([] : List M) C = ⟨[], Mode.LIFO, C, 0, C⟩ := rfl
  rw [hq0]
  rw [enqueueAll_spec msgs ⟨[], Mode.LIFO, C, 0, C⟩
      (by simpa using hN) (by simpa using hN)]
  exact drain_lifo msgs _ rfl (by simp) (by simp)

/-- Witness for C6 at a concrete input: capacity 3, messages
`[1, 2, 3]`, drained in reverse order. -/
theorem lifo_order_law_witness :
    drain 3 (enqueueAll [1, 2, 3] (mkQueue ([] : List Nat) 3)) = [3, 2, 1] :=
  lifo_order_law 3 [1, 2, 3] (by decide)

end MQ
